import Mathlib

/-!
Verification of the shape-reconciliation and launch-configuration logic of
`campie/run.py` (`run_kernel`).

The embedding models device arrays as a shape together with a flat, row-major
data list (`NDA`).  The CUDA kernel itself is an external collaborator: it is
modelled as a function from the kernel call (launch geometry plus argument
list) to the contents of the flat results buffer after the in-place mutation.
`run_kernel` is translated line by line from the source; Python failures
(IndexError on missing matrix dimensions, ZeroDivisionError in the launch
geometry, AssertionError for a missing reduction-values vector, ValueError on
a size-mismatched reshape) become `Except.error` values, and the list of
kernel invocations performed is returned alongside so that "fails before the
kernel is launched" is expressible.
-/

namespace Campie

/-- A device array: a shape and its row-major flat contents. -/
structure NDA where
  shape : List Nat
  data : List Int
deriving DecidableEq, Repr

/-- One positional argument of a kernel call: a flattened device array, a
scalar, or the pre-allocated results buffer (its contents at call time). -/
inductive KernelArg where
  | arr (xs : List Int)
  | num (n : Nat)
  | buf (xs : List Int)
deriving DecidableEq, Repr

/-- One kernel invocation: grid geometry, block geometry, argument list. -/
structure KernelCall where
  dimGrid : Nat × Nat × Nat
  dimBlock : Nat × Nat × Nat
  args : List KernelArg
deriving DecidableEq, Repr

/-- The ways `run_kernel` can fail, mirroring the Python exceptions. -/
inductive RunError where
  | indexError
  | zeroDivision
  | assertionFailed
  | reshapeMismatch
deriving DecidableEq, Repr

/-- Python `shape[-k]` (for `k = 1, 2`): the `k`-th dimension from the end. -/
def dimFromEnd (s : List Nat) (k : Nat) : Nat :=
  s.reverse.getD (k - 1) 0

/-- Python `shape[:-2]`: the outer (batch) dimensions of a stack. -/
def outerOf (s : List Nat) : List Nat :=
  s.take (s.length - 2)

/-- `sorted([inputs_outer_shape, cam_outer_shape], key=len)[0]`: Python's sort
is stable, so the inputs' outer shape is chosen on equal lengths. -/
def sub_shape_of (inputs_outer cam_outer : List Nat) : List Nat :=
  if cam_outer.length < inputs_outer.length then cam_outer else inputs_outer

/-- `sorted([inputs_outer_shape, cam_outer_shape], key=len)[1]`. -/
def super_shape_of (inputs_outer cam_outer : List Nat) : List Nat :=
  if cam_outer.length < inputs_outer.length then inputs_outer else cam_outer

/-- `overhang` from `run.py`: `shape[: -len(sub_shape)] if sub_shape else shape`. -/
def overhang (sub_shape shape : List Nat) : List Nat :=
  if sub_shape = [] then shape else shape.take (shape.length - sub_shape.length)

/-- `prod(overhang(inputs_outer_shape))`. -/
def inputs_overhang_of (inputs_outer cam_outer : List Nat) : Nat :=
  (overhang (sub_shape_of inputs_outer cam_outer) inputs_outer).prod

/-- `prod(overhang(cam_outer_shape))`. -/
def cam_overhang_of (inputs_outer cam_outer : List Nat) : Nat :=
  (overhang (sub_shape_of inputs_outer cam_outer) cam_outer).prod

/-- `input_rows * inputs_overhang * cam_rows * cam_overhang`. -/
def threads_per_core_of (inputs_outer cam_outer : List Nat) (input_rows cam_rows : Nat) : Nat :=
  input_rows * inputs_overhang_of inputs_outer cam_outer
    * cam_rows * cam_overhang_of inputs_outer cam_outer

/-- The shape the results buffer is allocated in (`run.py` lines 89‑91). -/
def resultsShapeOf (is_reduction : Bool) (super_shape : List Nat) (input_rows cam_rows : Nat) :
    List Nat :=
  super_shape ++ (if is_reduction then [input_rows] else [input_rows, cam_rows])

/-- Python `ceil(a / b)` on positive integers. -/
def ceil_div (a b : Nat) : Nat := (a + b - 1) / b

/-- `dim_block = (threads_per_block, 1, 1)` (`run.py` line 120). -/
def dimBlockOf (threads_per_core max_threads_per_block : Nat) : Nat × Nat × Nat :=
  (min threads_per_core max_threads_per_block, 1, 1)

/-- `dim_grid = (ceil(threads_per_core / threads_per_block), prod(sub_shape), 1)`
(`run.py` line 121). -/
def dimGridOf (threads_per_core max_threads_per_block cores : Nat) : Nat × Nat × Nat :=
  (ceil_div threads_per_core (min threads_per_core max_threads_per_block), cores, 1)

/-! ### Row-major indexing, reshape and transpose -/

/-- Row-major flat offset of a multi-index under a shape. -/
def flatIndex : List Nat → List Nat → Nat
  | _ :: ss, i :: is => i * ss.prod + flatIndex ss is
  | _, _ => 0

/-- Inverse of `flatIndex`: the multi-index of a flat offset under a shape. -/
def unflatten : List Nat → Nat → List Nat
  | [], _ => []
  | _ :: ss, n => n / ss.prod :: unflatten ss (n % ss.prod)

/-- `idx` is a valid multi-index for `shape` (same length, pointwise below). -/
def inBoundsB : List Nat → List Nat → Bool
  | [], [] => true
  | i :: is, s :: ss => decide (i < s) && inBoundsB is ss
  | _, _ => false

/-- The row-major stride of axis `m` of `shape`. -/
def strideAt (shape : List Nat) (m : Nat) : Nat :=
  (shape.drop (m + 1)).prod

/-- The flat offset, in an array of shape `shape`, reached by multi-index `idx`
of the view `a.transpose(axes)`: each component moves by the stride of the
axis it selects. -/
def transposeOffset (shape axes idx : List Nat) : Nat :=
  ((axes.zip idx).map (fun p => p.2 * strideAt shape p.1)).sum

/-- `numpy`/`cupy` `a.transpose(axes)`, materialised in row-major order:
axis `t` of the result is axis `axes[t]` of `a`. -/
def npTranspose (axes : List Nat) (a : NDA) : NDA :=
  let ns := axes.map (fun t => a.shape.getD t 0)
  ⟨ns, (List.range ns.prod).map (fun n => a.data.getD (transposeOffset a.shape axes (unflatten ns n)) 0)⟩

/-- `numpy`/`cupy` `a.reshape(newShape)`: succeeds exactly when the element
counts agree, keeping the flat data. -/
def npReshape (newShape : List Nat) (a : NDA) : Option NDA :=
  if newShape.prod = a.shape.prod then some ⟨newShape, a.data⟩ else none

/-- Logical element access: the row-major entry of `a` at multi-index `idx`. -/
def elemAt (a : NDA) (idx : List Nat) : Int :=
  a.data.getD (flatIndex a.shape idx) 0

/-- Following the specification text for Case 2: with `k = len(sub_shape)` and
`d` the total dimension count of the reinterpreted shape, the permutation
order is `[k .. d-3]` then `[0 .. k-1]` then `[d-2, d-1]`. -/
def specPermCase2 (k d : Nat) : List Nat :=
  List.range' k (d - 2 - k) ++ List.range k ++ [d - 2, d - 1]

/-- Following the specification text for Case 3: the permutation order is
`[k+1 .. d-2]` then `[0 .. k-1]` then `[k]` then `[d-1]`. -/
def specPermCase3 (k d : Nat) : List Nat :=
  List.range' (k + 1) (d - 1 - (k + 1)) ++ List.range k ++ [k, d - 1]

/-- Following the specification text for Case 2: the even-stack physical flat
position holding the value of logical index `(o…, s…, i, j)` — the buffer is
reinterpreted as `sub_shape ++ overhang ++ [input_rows, cam_rows]` and the
value sits at reinterpreted index `(s…, o…, i, j)`. -/
def physIndexCase2 (sub over : List Nat) (input_rows cam_rows : Nat)
    (s o : List Nat) (i j : Nat) : Nat :=
  flatIndex (sub ++ over ++ [input_rows, cam_rows]) (s ++ o ++ [i, j])

/-- Following the specification text for Case 3: the buffer is reinterpreted
as `sub_shape ++ [input_rows] ++ overhang ++ [cam_rows]` and the value of
logical index `(o…, s…, i, j)` sits at reinterpreted index `(s…, i, o…, j)`. -/
def physIndexCase3 (sub over : List Nat) (input_rows cam_rows : Nat)
    (s o : List Nat) (i j : Nat) : Nat :=
  flatIndex (sub ++ [input_rows] ++ over ++ [cam_rows]) (s ++ [i] ++ o ++ [j])

/-! ### The result-reshaping tail of `run_kernel` (`run.py` lines 166‑202) -/

/-- Lines 166‑202 of `run.py`: restore the even-stack results buffer into the
caller's logical broadcast shape (three cases on outer-shape lengths). -/
def restoreResults (inputs_outer_shape cam_outer_shape sub_shape super_shape : List Nat)
    (input_rows cam_rows : Nat) (results : NDA) : Except RunError NDA :=
  if inputs_outer_shape.length = cam_outer_shape.length then .ok results
  else
    let match_dims := results.shape.length
    let sub_shape_dims := sub_shape.length
    if cam_outer_shape.length < inputs_outer_shape.length then
      match npReshape (sub_shape ++ overhang sub_shape super_shape ++ [input_rows, cam_rows]) results with
      | none => .error .reshapeMismatch
      | some r => .ok (npTranspose
          (List.range' sub_shape_dims (match_dims - 2 - sub_shape_dims)
            ++ List.range sub_shape_dims ++ [match_dims - 2, match_dims - 1]) r)
    else
      match npReshape (sub_shape ++ [input_rows] ++ overhang sub_shape super_shape ++ [cam_rows]) results with
      | none => .error .reshapeMismatch
      | some r => .ok (npTranspose
          (List.range' (sub_shape_dims + 1) (match_dims - 1 - (sub_shape_dims + 1))
            ++ List.range sub_shape_dims ++ [sub_shape_dims, match_dims - 1]) r)

/-! ### `run_kernel` -/

/-- `run_kernel` from `run.py`, translated line by line.  `kfun` is the
external CUDA kernel: from a kernel call it gives the contents of the flat
results buffer after the in-place mutation (position by position).  The
returned list records the kernel invocations performed. -/
def run_kernel (kfun : KernelCall → Nat → Int)
    (max_threads_per_block cell_encoding_width : Nat) (is_reduction : Bool)
    (inputs cam : NDA) (reduction_values : Option NDA) :
    List KernelCall × Except RunError NDA :=
  if inputs.shape.length < 2 ∨ cam.shape.length < 2 then ([], .error .indexError)
  else if cell_encoding_width = 0 then ([], .error .zeroDivision)
  else
    let input_rows := dimFromEnd inputs.shape 2
    let cam_rows := dimFromEnd cam.shape 2
    let columns := dimFromEnd cam.shape 1 / cell_encoding_width
    let inputs_outer_shape := outerOf inputs.shape
    let cam_outer_shape := outerOf cam.shape
    let sub_shape := sub_shape_of inputs_outer_shape cam_outer_shape
    let super_shape := super_shape_of inputs_outer_shape cam_outer_shape
    let inputs_overhang := inputs_overhang_of inputs_outer_shape cam_outer_shape
    let cam_overhang := cam_overhang_of inputs_outer_shape cam_outer_shape
    let results_shape := resultsShapeOf is_reduction super_shape input_rows cam_rows
    let threads_per_core := input_rows * inputs_overhang * cam_rows * cam_overhang
    let threads_per_block := min threads_per_core max_threads_per_block
    if threads_per_block = 0 then ([], .error .zeroDivision)
    else
      let dim_block := dimBlockOf threads_per_core max_threads_per_block
      let dim_grid := dimGridOf threads_per_core max_threads_per_block sub_shape.prod
      let kernel_args := [KernelArg.arr inputs.data, KernelArg.arr cam.data,
        KernelArg.num columns,
        KernelArg.num (input_rows * inputs_overhang),
        KernelArg.num (cam_rows * cam_overhang),
        KernelArg.buf (List.replicate results_shape.prod 0)]
      match is_reduction, reduction_values with
      | true, none => ([], .error .assertionFailed)
      | true, some v =>
        let call : KernelCall := ⟨dim_grid, dim_block, kernel_args ++ [KernelArg.arr v.data]⟩
        ([call], restoreResults inputs_outer_shape cam_outer_shape sub_shape super_shape
          input_rows cam_rows ⟨results_shape, (List.range results_shape.prod).map (kfun call)⟩)
      | false, _ =>
        let call : KernelCall := ⟨dim_grid, dim_block, kernel_args⟩
        ([call], restoreResults inputs_outer_shape cam_outer_shape sub_shape super_shape
          input_rows cam_rows ⟨results_shape, (List.range results_shape.prod).map (kfun call)⟩)

/-! ### Basic shape lemmas -/

theorem dimFromEnd_two (xs : List Nat) (a b : Nat) : dimFromEnd (xs ++ [a, b]) 2 = a := by
  simp [dimFromEnd, List.reverse_append]

theorem dimFromEnd_one (xs : List Nat) (a b : Nat) : dimFromEnd (xs ++ [a, b]) 1 = b := by
  simp [dimFromEnd, List.reverse_append]

theorem outerOf_append (xs : List Nat) (a b : Nat) : outerOf (xs ++ [a, b]) = xs := by
  have h : (xs ++ [a, b]).length - 2 = xs.length := by simp
  rw [outerOf, h, List.take_left' rfl]

theorem overhang_self (s : List Nat) : overhang s s = [] := by
  rcases s with _ | ⟨a, t⟩
  · rfl
  · simp [overhang]

theorem overhang_append (sub super : List Nat) (h : sub <:+ super) :
    overhang sub super ++ sub = super := by
  obtain ⟨t, ht⟩ := h
  subst ht
  rcases sub with _ | ⟨a, s⟩
  · simp [overhang]
  · rw [overhang, if_neg (by simp)]
    have hlen : (t ++ a :: s).length - (a :: s).length = t.length := by simp
    rw [hlen, List.take_left' rfl]

theorem sub_shape_of_length_le (io co : List Nat) :
    (sub_shape_of io co).length ≤ (super_shape_of io co).length := by
  unfold sub_shape_of super_shape_of
  split <;> omega

/-- Shared case analysis: a reduction call with no reduction-values vector
always ends in an error without recording any kernel invocation. -/
theorem run_kernel_red_none (kfun : KernelCall → Nat → Int) (maxT width : Nat)
    (inputs cam : NDA) :
    ∃ e : RunError, run_kernel kfun maxT width true inputs cam none = ([], .error e) := by
  simp only [run_kernel]
  split
  · exact ⟨_, rfl⟩
  · split
    · exact ⟨_, rfl⟩
    · split
      · exact ⟨_, rfl⟩
      · exact ⟨_, rfl⟩

/-! ### Claims C4, C5, C7, C8, C10 -/

/-- Claim C4: whenever the operation is a reduction and `reduction_values` is
`None`, `run_kernel` fails (returns an error), and no kernel invocation is
recorded — the failure happens before any device work is scheduled. -/
theorem run_kernel_reduction_missing_values_fails
    (kfun : KernelCall → Nat → Int) (maxT width : Nat) (inputs cam : NDA) :
    (run_kernel kfun maxT width true inputs cam none).1 = [] ∧
    ∃ e : RunError, (run_kernel kfun maxT width true inputs cam none).2 = .error e := by
  obtain ⟨e, he⟩ := run_kernel_red_none kfun maxT width inputs cam
  rw [he]
  exact ⟨rfl, e, rfl⟩

/-- Claim C5: with `threads_per_core = input_rows * inputs_overhang_factor *
cam_rows * cam_overhang_factor ≥ 1` and `max_threads_per_block ≥ 1`, the
launch geometry is `dim_block = (min(threads_per_core, max_threads), 1, 1)`
and `dim_grid = (ceil(threads_per_core / threads_per_block), cores, 1)`, and
consequently `dim_block.x * dim_grid.x ≥ threads_per_core` and
`dim_block.x ≤ max_threads_per_block`. -/
theorem launch_geometry (input_rows fi cam_rows fc maxT cores : Nat)
    (h1 : 1 ≤ input_rows * fi * cam_rows * fc) (h2 : 1 ≤ maxT) :
    dimBlockOf (input_rows * fi * cam_rows * fc) maxT
        = (min (input_rows * fi * cam_rows * fc) maxT, 1, 1) ∧
    dimGridOf (input_rows * fi * cam_rows * fc) maxT cores
        = (ceil_div (input_rows * fi * cam_rows * fc)
            (min (input_rows * fi * cam_rows * fc) maxT), cores, 1) ∧
    input_rows * fi * cam_rows * fc
        ≤ (dimBlockOf (input_rows * fi * cam_rows * fc) maxT).1
          * (dimGridOf (input_rows * fi * cam_rows * fc) maxT cores).1 ∧
    (dimBlockOf (input_rows * fi * cam_rows * fc) maxT).1 ≤ maxT := by
  set tpc := input_rows * fi * cam_rows * fc with htpc
  refine ⟨rfl, rfl, ?_, min_le_right _ _⟩
  show tpc ≤ min tpc maxT * ceil_div tpc (min tpc maxT)
  rw [ceil_div]
  set b := min tpc maxT with hbdef
  have hb : 1 ≤ b := le_min h1 h2
  have h3 := Nat.div_add_mod (tpc + b - 1) b
  have h4 : (tpc + b - 1) % b < b := Nat.mod_lt _ (by omega)
  set q := (tpc + b - 1) / b with hq
  set r := (tpc + b - 1) % b with hr
  set m := b * q with hm
  omega

/-- Witness for claim C5 at `input_rows = 2, fi = 1, cam_rows = 3, fc = 5,
max_threads_per_block = 4, cores = 7`. -/
theorem launch_geometry_witness :
    2 * 1 * 3 * 5
        ≤ (dimBlockOf (2 * 1 * 3 * 5) 4).1 * (dimGridOf (2 * 1 * 3 * 5) 4 7).1 :=
  (launch_geometry 2 1 3 5 4 7 (by decide) (by decide)).2.2.1

/-- Claim C7: `overhang(shape)` is `shape` with its trailing `len(sub_shape)`
elements removed (unchanged when `sub_shape` is empty), and
`len(sub_shape) + len(overhang(super_shape)) = len(super_shape)`. -/
theorem overhang_truncates (io co : List Nat) :
    (∀ shape : List Nat,
        overhang (sub_shape_of io co) shape
          = shape.take (shape.length - (sub_shape_of io co).length)) ∧
    (sub_shape_of io co = [] →
      ∀ shape : List Nat, overhang (sub_shape_of io co) shape = shape) ∧
    (sub_shape_of io co).length
        + (overhang (sub_shape_of io co) (super_shape_of io co)).length
      = (super_shape_of io co).length := by
  refine ⟨?_, ?_, ?_⟩
  · intro shape
    rw [overhang]
    split
    · rename_i h
      rw [h]
      simp
    · rfl
  · intro h shape
    rw [overhang, if_pos h]
  · have hle := sub_shape_of_length_le io co
    rw [overhang]
    split
    · rename_i h
      rw [h]
      simp
    · rw [List.length_take]
      omega

/-- Witness for claim C7 at the pair `((2,), ())`, whose `sub_shape` is empty. -/
theorem overhang_truncates_witness :
    overhang (sub_shape_of [2] []) [7] = [7] ∧
    (sub_shape_of [2] []).length
        + (overhang (sub_shape_of [2] []) (super_shape_of [2] [])).length
      = (super_shape_of [2] []).length :=
  ⟨(overhang_truncates [2] []).2.1 rfl [7], (overhang_truncates [2] []).2.2⟩

/-- Claim C8 is false as stated: with outer shapes `(2,)` and `(2,)` — which
satisfy the trailing-suffix precondition — both overhang factors equal 1, so
it is not the case that exactly one of them equals 1. -/
theorem overhang_factors_not_exactly_one :
    ([2] : List Nat) <:+ [2] ∧
    ¬((inputs_overhang_of [2] [2] = 1 ∧ cam_overhang_of [2] [2] ≠ 1) ∨
      (inputs_overhang_of [2] [2] ≠ 1 ∧ cam_overhang_of [2] [2] = 1)) := by
  constructor
  · exact ⟨[], rfl⟩
  · decide

/-- Claim C8 as amended: for every pair of outer shapes, at least one of the
two overhang factors equals 1 (the stack whose outer shape is the shorter one
has an empty overhang). -/
theorem overhang_factors_at_least_one (io co : List Nat) :
    inputs_overhang_of io co = 1 ∨ cam_overhang_of io co = 1 := by
  by_cases h : co.length < io.length
  · right
    simp [cam_overhang_of, sub_shape_of, if_pos h, overhang_self]
  · left
    simp [inputs_overhang_of, sub_shape_of, if_neg h, overhang_self]

/-- Claim C10: for a non-reduction operation the `reduction_values` argument
is never examined — the kernel invocations and the result are identical
whatever is passed for it. -/
theorem run_kernel_ignores_reduction_values
    (kfun : KernelCall → Nat → Int) (maxT width : Nat) (inputs cam : NDA)
    (rv rv' : Option NDA) :
    run_kernel kfun maxT width false inputs cam rv
      = run_kernel kfun maxT width false inputs cam rv' := by
  cases rv <;> cases rv' <;> rfl

/-! ### Row-major indexing lemmas -/

theorem flatIndex_nil (s : List Nat) : flatIndex s [] = 0 := by
  cases s <;> rfl

theorem flatIndex_cons (a : Nat) (t : List Nat) (i : Nat) (is : List Nat) :
    flatIndex (a :: t) (i :: is) = i * t.prod + flatIndex t is := rfl

theorem inBoundsB_length {idx s : List Nat} (h : inBoundsB idx s = true) :
    idx.length = s.length := by
  induction idx generalizing s with
  | nil =>
    cases s with
    | nil => rfl
    | cons a t => simp [inBoundsB] at h
  | cons i is ih =>
    cases s with
    | nil => simp [inBoundsB] at h
    | cons a t =>
      simp only [inBoundsB, Bool.and_eq_true] at h
      simp [ih h.2]

theorem prod_pos_of_inBoundsB {idx s : List Nat} (h : inBoundsB idx s = true) :
    0 < s.prod := by
  induction idx generalizing s with
  | nil =>
    cases s with
    | nil => simp
    | cons a t => simp [inBoundsB] at h
  | cons i is ih =>
    cases s with
    | nil => simp [inBoundsB] at h
    | cons a t =>
      simp only [inBoundsB, Bool.and_eq_true, decide_eq_true_eq] at h
      have ha : 0 < a := Nat.lt_of_le_of_lt (Nat.zero_le _) h.1
      rw [List.prod_cons]
      exact Nat.mul_pos ha (ih h.2)

theorem flatIndex_lt {idx s : List Nat} (h : inBoundsB idx s = true) :
    flatIndex s idx < s.prod := by
  induction idx generalizing s with
  | nil =>
    cases s with
    | nil => simp [flatIndex_nil]
    | cons a t => simp [inBoundsB] at h
  | cons i is ih =>
    cases s with
    | nil => simp [inBoundsB] at h
    | cons a t =>
      simp only [inBoundsB, Bool.and_eq_true, decide_eq_true_eq] at h
      have h1 := ih h.2
      have h2 : i + 1 ≤ a := h.1
      calc flatIndex (a :: t) (i :: is) = i * t.prod + flatIndex t is := rfl
        _ < i * t.prod + t.prod := by omega
        _ = (i + 1) * t.prod := by ring
        _ ≤ a * t.prod := Nat.mul_le_mul_right _ h2
        _ = (a :: t).prod := (List.prod_cons).symm

theorem unflatten_flatIndex {idx s : List Nat} (h : inBoundsB idx s = true) :
    unflatten s (flatIndex s idx) = idx := by
  induction idx generalizing s with
  | nil =>
    cases s with
    | nil => rfl
    | cons a t => simp [inBoundsB] at h
  | cons i is ih =>
    cases s with
    | nil => simp [inBoundsB] at h
    | cons a t =>
      simp only [inBoundsB, Bool.and_eq_true, decide_eq_true_eq] at h
      have hP : 0 < t.prod := prod_pos_of_inBoundsB h.2
      have hf : flatIndex t is < t.prod := flatIndex_lt h.2
      show (i * t.prod + flatIndex t is) / t.prod
            :: unflatten t ((i * t.prod + flatIndex t is) % t.prod) = i :: is
      have hdiv : (i * t.prod + flatIndex t is) / t.prod = i := by
        rw [Nat.add_comm, Nat.add_mul_div_right _ _ hP, Nat.div_eq_of_lt hf]
        omega
      have hmod : (i * t.prod + flatIndex t is) % t.prod = flatIndex t is := by
        rw [Nat.add_comm, Nat.add_mul_mod_self_right, Nat.mod_eq_of_lt hf]
      rw [hdiv, hmod, ih h.2]

theorem inBoundsB_append {x y A B : List Nat} (h : x.length = A.length) :
    inBoundsB (x ++ y) (A ++ B) = (inBoundsB x A && inBoundsB y B) := by
  induction x generalizing A with
  | nil =>
    cases A with
    | nil => simp [inBoundsB]
    | cons a t => simp at h
  | cons i is ih =>
    cases A with
    | nil => simp at h
    | cons a t =>
      simp only [List.cons_append, inBoundsB]
      show (decide (i < a) && inBoundsB (is ++ y) (t ++ B))
          = (decide (i < a) && inBoundsB is t && inBoundsB y B)
      rw [ih (by simpa using h)]
      simp [Bool.and_assoc]

theorem getD_map_range {α : Type} (N n : Nat) (f : Nat → α) (d : α) (h : n < N) :
    ((List.range N).map f).getD n d = f n := by
  rw [List.getD_eq_getElem?_getD, List.getElem?_map, List.getElem?_range h]
  rfl

theorem flatIndex_append {A x : List Nat} (B y : List Nat) (h : x.length = A.length) :
    flatIndex (A ++ B) (x ++ y) = flatIndex A x * B.prod + flatIndex B y := by
  induction A generalizing x with
  | nil =>
    have hx : x = [] := List.length_eq_zero.mp (by simpa using h)
    subst hx
    show flatIndex B y = 0 * B.prod + flatIndex B y
    simp
  | cons a t ih =>
    cases x with
    | nil => simp at h
    | cons i is =>
      simp only [List.cons_append]
      show i * (t ++ B).prod + flatIndex (t ++ B) (is ++ y)
          = (i * t.prod + flatIndex t is) * B.prod + flatIndex B y
      rw [ih (by simpa using h), List.prod_append]
      ring

/-! ### Transpose-offset lemmas -/

theorem transposeOffset_append (shape : List Nat) {A₁ x₁ : List Nat} (A₂ x₂ : List Nat)
    (h : A₁.length = x₁.length) :
    transposeOffset shape (A₁ ++ A₂) (x₁ ++ x₂)
      = transposeOffset shape A₁ x₁ + transposeOffset shape A₂ x₂ := by
  unfold transposeOffset
  rw [List.zip_append h, List.map_append, List.sum_append]

theorem stride_sum (S xs : List Nat) (start : Nat) (h : start + xs.length ≤ S.length) :
    (((List.range' start xs.length).zip xs).map (fun p => p.2 * strideAt S p.1)).sum
      = flatIndex ((S.drop start).take xs.length) xs * (S.drop (start + xs.length)).prod := by
  induction xs generalizing start with
  | nil => simp [flatIndex_nil]
  | cons x xs ih =>
    simp only [List.length_cons] at h ⊢
    have hstart : start < S.length := by omega
    rw [List.range'_succ]
    simp only [List.zip_cons_cons, List.map_cons, List.sum_cons]
    rw [ih (start + 1) (by omega)]
    rw [List.drop_eq_getElem_cons hstart, List.take_succ_cons, flatIndex_cons]
    have hsplit : (S.drop (start + 1)).prod
        = ((S.drop (start + 1)).take xs.length).prod
          * (S.drop (start + 1 + xs.length)).prod := by
      conv_lhs => rw [← List.take_append_drop xs.length (S.drop (start + 1))]
      rw [List.prod_append, List.drop_drop]
    have harith : start + (xs.length + 1) = start + 1 + xs.length := by omega
    rw [harith, strideAt, hsplit]
    ring

theorem map_getD_range' (S : List Nat) (r : Nat) :
    ∀ k : Nat, k + r ≤ S.length →
      (List.range' k r).map (fun t => S.getD t 0) = (S.drop k).take r := by
  induction r with
  | zero => intro k _; simp
  | succ r ih =>
    intro k hk
    have hks : k < S.length := by omega
    rw [List.range'_succ, List.map_cons, ih (k + 1) (by omega)]
    rw [List.drop_eq_getElem_cons hks, List.take_succ_cons,
      List.getD_eq_getElem S 0 hks]

theorem stride_sum' (S xs : List Nat) (start r : Nat) (hr : xs.length = r)
    (h : start + r ≤ S.length) :
    (((List.range' start r).zip xs).map (fun p => p.2 * strideAt S p.1)).sum
      = flatIndex ((S.drop start).take r) xs * (S.drop (start + r)).prod := by
  subst hr
  exact stride_sum S xs start h

theorem npTranspose_shape (axes : List Nat) (a : NDA) :
    (npTranspose axes a).shape = axes.map (fun t => a.shape.getD t 0) := rfl

theorem npTranspose_elem (axes : List Nat) (a : NDA) (idx : List Nat)
    (h : inBoundsB idx (axes.map (fun t => a.shape.getD t 0)) = true) :
    elemAt (npTranspose axes a) idx
      = a.data.getD (transposeOffset a.shape axes idx) 0 := by
  have hlt := flatIndex_lt h
  show ((List.range (axes.map (fun t => a.shape.getD t 0)).prod).map
      (fun n => a.data.getD (transposeOffset a.shape axes (unflatten (axes.map (fun t => a.shape.getD t 0)) n)) 0)).getD
      (flatIndex (axes.map (fun t => a.shape.getD t 0)) idx) 0
    = a.data.getD (transposeOffset a.shape axes idx) 0
  rw [getD_map_range _ _ _ _ hlt, unflatten_flatIndex h]

/-- The Case 2 permutation really is a relabeling: following the permuted
axes from a logical index `(o…, s…, i, j)` lands on the row-major offset of
`(s…, o…, i, j)` in the reinterpreted shape. -/
theorem transposeOffset_case2 (sub over : List Nat) (ir cr : Nat)
    (s o : List Nat) (i j : Nat) (hs : s.length = sub.length) (ho : o.length = over.length) :
    transposeOffset (sub ++ over ++ [ir, cr])
        (List.range' sub.length over.length ++ List.range sub.length
          ++ [sub.length + over.length, sub.length + over.length + 1])
        (o ++ s ++ [i, j])
      = flatIndex (sub ++ over ++ [ir, cr]) (s ++ o ++ [i, j]) := by
  set S := sub ++ over ++ [ir, cr] with hS
  have hlenS : S.length = sub.length + over.length + 2 := by
    rw [hS]
    simp only [List.length_append, List.length_cons, List.length_nil]
  have htakek : S.take sub.length = sub := by
    rw [hS, List.append_assoc]
    exact List.take_left' rfl
  have hdropk : S.drop sub.length = over ++ [ir, cr] := by
    rw [hS, List.append_assoc]
    exact List.drop_left' rfl
  have hdropkr : S.drop (sub.length + over.length) = [ir, cr] := by
    rw [hS]
    exact List.drop_left' (by simp only [List.length_append])
  have hdropkr1 : S.drop (sub.length + over.length + 1) = [cr] := by
    rw [← List.drop_drop, hdropkr]; rfl
  have hdropkr2 : S.drop (sub.length + over.length + 2) = [] := by
    rw [← List.drop_drop, hdropkr]; rfl
  rw [transposeOffset_append S
        [sub.length + over.length, sub.length + over.length + 1] [i, j]
        (by simp only [List.length_append, List.length_range, List.length_range']; omega),
      transposeOffset_append S (List.range sub.length) s
        (by rw [List.length_range']; exact ho.symm)]
  have hA : transposeOffset S (List.range' sub.length over.length) o
      = flatIndex over o * [ir, cr].prod := by
    unfold transposeOffset
    rw [show List.range' sub.length over.length = List.range' sub.length o.length from
      by rw [ho]]
    rw [stride_sum S o sub.length (by omega)]
    rw [hdropk, ho, List.take_left' rfl, hdropkr]
  have hB : transposeOffset S (List.range sub.length) s
      = flatIndex sub s * (over ++ [ir, cr]).prod := by
    unfold transposeOffset
    rw [List.range_eq_range']
    rw [show List.range' 0 sub.length = List.range' 0 s.length from by rw [hs]]
    rw [stride_sum S s 0 (by omega)]
    rw [List.drop_zero, Nat.zero_add, hs, htakek, hdropk]
  have hC : transposeOffset S
        [sub.length + over.length, sub.length + over.length + 1] [i, j]
      = i * cr + j := by
    have e1 : sub.length + over.length + 1 + 1 = sub.length + over.length + 2 := by omega
    unfold transposeOffset strideAt
    simp only [List.zip_cons_cons, List.zip_nil_right, List.map_cons, List.map_nil,
      List.sum_cons, List.sum_nil]
    rw [e1, hdropkr1, hdropkr2]
    simp
  rw [hA, hB, hC, hS]
  rw [flatIndex_append [ir, cr] [i, j]
        (by simp only [List.length_append]; omega),
      flatIndex_append over o hs]
  have hij : flatIndex [ir, cr] [i, j] = i * cr + j := by
    simp [flatIndex_cons, flatIndex_nil]
  rw [hij]
  simp only [List.prod_append, List.prod_cons, List.prod_nil]
  ring

/-- The Case 3 permutation really is a relabeling: following the permuted
axes from a logical index `(o…, s…, i, j)` lands on the row-major offset of
`(s…, i, o…, j)` in the reinterpreted shape. -/
theorem transposeOffset_case3 (sub over : List Nat) (ir cr : Nat)
    (s o : List Nat) (i j : Nat) (hs : s.length = sub.length) (ho : o.length = over.length) :
    transposeOffset (sub ++ [ir] ++ over ++ [cr])
        (List.range' (sub.length + 1) over.length ++ List.range sub.length
          ++ [sub.length, sub.length + over.length + 1])
        (o ++ s ++ [i, j])
      = flatIndex (sub ++ [ir] ++ over ++ [cr]) (s ++ [i] ++ o ++ [j]) := by
  set S := sub ++ [ir] ++ over ++ [cr] with hS
  have hlenS : S.length = sub.length + over.length + 2 := by
    rw [hS]
    simp only [List.length_append, List.length_cons, List.length_nil]
    omega
  have htakek : S.take sub.length = sub := by
    rw [hS, List.append_assoc, List.append_assoc]
    exact List.take_left' rfl
  have hdropk : S.drop sub.length = [ir] ++ (over ++ [cr]) := by
    rw [hS, List.append_assoc, List.append_assoc]
    exact List.drop_left' rfl
  have hdropk1 : S.drop (sub.length + 1) = over ++ [cr] := by
    rw [hS, List.append_assoc]
    exact List.drop_left'
      (by simp only [List.length_append, List.length_cons, List.length_nil])
  have hdropk1r : S.drop (sub.length + 1 + over.length) = [cr] := by
    rw [hS]
    exact List.drop_left'
      (by simp only [List.length_append, List.length_cons, List.length_nil])
  have hdropk1r1 : S.drop (sub.length + over.length + 2) = [] := by
    have e : sub.length + over.length + 2 = sub.length + 1 + over.length + 1 := by omega
    rw [e, ← List.drop_drop, hdropk1r]; rfl
  rw [transposeOffset_append S [sub.length, sub.length + over.length + 1] [i, j]
        (by simp only [List.length_append, List.length_range, List.length_range']; omega),
      transposeOffset_append S (List.range sub.length) s
        (by rw [List.length_range']; exact ho.symm)]
  have hA : transposeOffset S (List.range' (sub.length + 1) over.length) o
      = flatIndex over o * [cr].prod := by
    unfold transposeOffset
    rw [show List.range' (sub.length + 1) over.length
          = List.range' (sub.length + 1) o.length from by rw [ho]]
    rw [stride_sum S o (sub.length + 1) (by omega)]
    rw [hdropk1, ho, List.take_left' rfl, hdropk1r]
  have hB : transposeOffset S (List.range sub.length) s
      = flatIndex sub s * ([ir] ++ (over ++ [cr])).prod := by
    unfold transposeOffset
    rw [List.range_eq_range']
    rw [show List.range' 0 sub.length = List.range' 0 s.length from by rw [hs]]
    rw [stride_sum S s 0 (by omega)]
    rw [List.drop_zero, Nat.zero_add, hs, htakek, hdropk]
  have hC : transposeOffset S [sub.length, sub.length + over.length + 1] [i, j]
      = i * (over ++ [cr]).prod + j := by
    have e1 : sub.length + over.length + 1 + 1 = sub.length + over.length + 2 := by omega
    unfold transposeOffset strideAt
    simp only [List.zip_cons_cons, List.zip_nil_right, List.map_cons, List.map_nil,
      List.sum_cons, List.sum_nil]
    rw [e1, hdropk1, hdropk1r1]
    simp
  rw [hA, hB, hC, hS]
  rw [flatIndex_append [cr] [j]
        (by simp only [List.length_append, List.length_cons, List.length_nil]; omega),
      flatIndex_append over o
        (by simp only [List.length_append, List.length_cons, List.length_nil]; omega),
      flatIndex_append [ir] [i] hs]
  have hi : flatIndex [ir] [i] = i := by simp [flatIndex_cons, flatIndex_nil]
  have hj : flatIndex [cr] [j] = j := by simp [flatIndex_cons, flatIndex_nil]
  rw [hi, hj]
  simp only [List.prod_append, List.prod_cons, List.prod_nil]
  ring

theorem getD_eq_head_drop {l : List Nat} {n x : Nat} {rest : List Nat}
    (h : l.drop n = x :: rest) : l.getD n 0 = x := by
  induction l generalizing n with
  | nil => simp at h
  | cons a t ih =>
    cases n with
    | zero =>
      rw [List.drop_zero] at h
      injection h
    | succ m =>
      rw [List.drop_succ_cons] at h
      rw [List.getD_cons_succ]
      exact ih h

/-! ### Symbolic evaluation of `run_kernel` up to the kernel call -/

/-- Whenever the well-formedness guards pass, `run_kernel` performs exactly
one kernel invocation with the documented launch geometry and argument list,
and hands the written buffer to the result-reshaping stage. -/
theorem run_kernel_call_eq (kfun : KernelCall → Nat → Int) (maxT width : Nat) (red : Bool)
    (inputs cam : NDA) (rv : Option NDA) (io co : List Nat) (ir icols cr ccols : Nat)
    (hio : inputs.shape = io ++ [ir, icols]) (hco : cam.shape = co ++ [cr, ccols])
    (hw : ¬ width = 0)
    (htpb : ¬ min (ir * inputs_overhang_of io co * cr * cam_overhang_of io co) maxT = 0)
    (hrv : ¬(red = true ∧ rv = none)) :
    ∃ call : KernelCall,
      call = ⟨dimGridOf (ir * inputs_overhang_of io co * cr * cam_overhang_of io co) maxT
              (sub_shape_of io co).prod,
            dimBlockOf (ir * inputs_overhang_of io co * cr * cam_overhang_of io co) maxT,
            [KernelArg.arr inputs.data, KernelArg.arr cam.data,
             KernelArg.num (ccols / width),
             KernelArg.num (ir * inputs_overhang_of io co),
             KernelArg.num (cr * cam_overhang_of io co),
             KernelArg.buf (List.replicate
               (resultsShapeOf red (super_shape_of io co) ir cr).prod 0)]
             ++ (if red = true then (rv.map (fun v => KernelArg.arr v.data)).toList else [])⟩ ∧
      run_kernel kfun maxT width red inputs cam rv
        = ([call], restoreResults io co (sub_shape_of io co) (super_shape_of io co) ir cr
            ⟨resultsShapeOf red (super_shape_of io co) ir cr,
             (List.range (resultsShapeOf red (super_shape_of io co) ir cr).prod).map
               (kfun call)⟩) := by
  refine ⟨_, rfl, ?_⟩
  have h2i : ¬(inputs.shape.length < 2 ∨ cam.shape.length < 2) := by
    rw [hio, hco]
    simp only [List.length_append, List.length_cons, List.length_nil]
    omega
  simp only [run_kernel]
  rw [if_neg h2i, if_neg hw, hio, hco]
  simp only [dimFromEnd_two, dimFromEnd_one, outerOf_append]
  rw [if_neg htpb]
  cases red with
  | true =>
    cases rv with
    | none => exact absurd ⟨rfl, rfl⟩ hrv
    | some v => rfl
  | false =>
    cases rv with
    | none => rfl
    | some v => rfl

/-- Case 2 (inputs' outer shape strictly longer): the non-reduction result is
the reshape of the kernel-written buffer to
`sub_shape ++ overhang ++ [input_rows, cam_rows]` transposed by the
documented permutation. -/
theorem run_kernel_case2_eq (kfun : KernelCall → Nat → Int) (maxT width : Nat)
    (inputs cam : NDA) (rv : Option NDA) (io co : List Nat) (ir icols cr ccols : Nat)
    (hio : inputs.shape = io ++ [ir, icols]) (hco : cam.shape = co ++ [cr, ccols])
    (hw : ¬ width = 0) (hlen : co.length < io.length) (hsuf : co <:+ io)
    (htpb : ¬ min (ir * inputs_overhang_of io co * cr * cam_overhang_of io co) maxT = 0) :
    ∃ call : KernelCall,
      run_kernel kfun maxT width false inputs cam rv
        = ([call], .ok (npTranspose
            (List.range' co.length (overhang co io).length ++ List.range co.length
              ++ [co.length + (overhang co io).length,
                  co.length + (overhang co io).length + 1])
            ⟨co ++ overhang co io ++ [ir, cr],
             (List.range ((co ++ overhang co io ++ [ir, cr]).prod)).map (kfun call)⟩)) := by
  have hsub : sub_shape_of io co = co := by
    unfold sub_shape_of; rw [if_pos hlen]
  have hsuper : super_shape_of io co = io := by
    unfold super_shape_of; rw [if_pos hlen]
  have hoc : overhang co io ++ co = io := overhang_append co io hsuf
  have hlens : (overhang co io).length + co.length = io.length := by
    conv_rhs => rw [← hoc]
    simp [List.length_append]
  obtain ⟨call, hcall, heq⟩ := run_kernel_call_eq kfun maxT width false inputs cam rv
    io co ir icols cr ccols hio hco hw htpb (by simp)
  refine ⟨call, ?_⟩
  rw [heq, hsub, hsuper]
  have hres : resultsShapeOf false io ir cr = io ++ [ir, cr] := rfl
  rw [hres]
  have hprod : (co ++ overhang co io ++ [ir, cr]).prod
      = ((io ++ [ir, cr] : List Nat)).prod := by
    conv_rhs => rw [← hoc]
    simp only [List.prod_append]
    ring
  simp only [restoreResults]
  rw [if_neg (by omega : ¬ io.length = co.length), if_pos hlen]
  simp only [npReshape]
  rw [if_pos hprod]
  simp only [List.length_append, List.length_cons, List.length_nil]
  have e1 : io.length + (0 + 1 + 1) - 2 - co.length = (overhang co io).length := by omega
  have e2 : io.length + (0 + 1 + 1) - 2 = co.length + (overhang co io).length := by omega
  have e3 : io.length + (0 + 1 + 1) - 1 = co.length + (overhang co io).length + 1 := by omega
  rw [e1, e2, e3, hprod]

/-- Case 3 (cam's outer shape strictly longer): the non-reduction result is
the reshape of the kernel-written buffer to
`sub_shape ++ [input_rows] ++ overhang ++ [cam_rows]` transposed by the
documented permutation. -/
theorem run_kernel_case3_eq (kfun : KernelCall → Nat → Int) (maxT width : Nat)
    (inputs cam : NDA) (rv : Option NDA) (io co : List Nat) (ir icols cr ccols : Nat)
    (hio : inputs.shape = io ++ [ir, icols]) (hco : cam.shape = co ++ [cr, ccols])
    (hw : ¬ width = 0) (hlen : io.length < co.length) (hsuf : io <:+ co)
    (htpb : ¬ min (ir * inputs_overhang_of io co * cr * cam_overhang_of io co) maxT = 0) :
    ∃ call : KernelCall,
      run_kernel kfun maxT width false inputs cam rv
        = ([call], .ok (npTranspose
            (List.range' (io.length + 1) (overhang io co).length ++ List.range io.length
              ++ [io.length, io.length + (overhang io co).length + 1])
            ⟨io ++ [ir] ++ overhang io co ++ [cr],
             (List.range ((io ++ [ir] ++ overhang io co ++ [cr]).prod)).map (kfun call)⟩)) := by
  have hsub : sub_shape_of io co = io := by
    unfold sub_shape_of; rw [if_neg (by omega : ¬ co.length < io.length)]
  have hsuper : super_shape_of io co = co := by
    unfold super_shape_of; rw [if_neg (by omega : ¬ co.length < io.length)]
  have hoc : overhang io co ++ io = co := overhang_append io co hsuf
  have hlens : (overhang io co).length + io.length = co.length := by
    conv_rhs => rw [← hoc]
    simp [List.length_append]
  obtain ⟨call, hcall, heq⟩ := run_kernel_call_eq kfun maxT width false inputs cam rv
    io co ir icols cr ccols hio hco hw htpb (by simp)
  refine ⟨call, ?_⟩
  rw [heq, hsub, hsuper]
  have hres : resultsShapeOf false co ir cr = co ++ [ir, cr] := rfl
  rw [hres]
  have hprod : (io ++ [ir] ++ overhang io co ++ [cr]).prod
      = ((co ++ [ir, cr] : List Nat)).prod := by
    conv_rhs => rw [← hoc]
    simp only [List.prod_append, List.prod_cons, List.prod_nil]
    ring
  simp only [restoreResults]
  rw [if_neg (by omega : ¬ io.length = co.length),
      if_neg (by omega : ¬ co.length < io.length)]
  simp only [npReshape]
  rw [if_pos hprod]
  simp only [List.length_append, List.length_cons, List.length_nil]
  have e1 : co.length + (0 + 1 + 1) - 1 - (io.length + 1) = (overhang io co).length := by
    omega
  have e2 : co.length + (0 + 1 + 1) - 1 = io.length + (overhang io co).length + 1 := by
    omega
  rw [e1, e2, hprod]

/-- The Case 2 permutation applied to `sub ++ over ++ [ir, cr]` yields
`over ++ sub ++ [ir, cr]`. -/
theorem transposedShapeCase2 (sub over : List Nat) (ir cr : Nat) :
    (List.range' sub.length over.length ++ List.range sub.length
        ++ [sub.length + over.length, sub.length + over.length + 1]).map
        (fun t => (sub ++ over ++ [ir, cr]).getD t 0)
      = over ++ sub ++ [ir, cr] := by
  set S := sub ++ over ++ [ir, cr] with hS
  have hlenS : S.length = sub.length + over.length + 2 := by
    rw [hS]; simp only [List.length_append, List.length_cons, List.length_nil]
  have htakek : S.take sub.length = sub := by
    rw [hS, List.append_assoc]; exact List.take_left' rfl
  have hdropk : S.drop sub.length = over ++ [ir, cr] := by
    rw [hS, List.append_assoc]; exact List.drop_left' rfl
  have hdropkr : S.drop (sub.length + over.length) = ir :: [cr] := by
    rw [hS]; exact List.drop_left' (by simp only [List.length_append])
  have hdropkr1 : S.drop (sub.length + over.length + 1) = cr :: [] := by
    rw [← List.drop_drop, hdropkr]; rfl
  simp only [List.map_append, List.map_cons, List.map_nil]
  rw [map_getD_range' S over.length sub.length (by omega)]
  rw [List.range_eq_range', map_getD_range' S sub.length 0 (by omega)]
  rw [List.drop_zero, htakek, hdropk, List.take_left' rfl,
      getD_eq_head_drop hdropkr, getD_eq_head_drop hdropkr1]

/-- The Case 3 permutation applied to `sub ++ [ir] ++ over ++ [cr]` yields
`over ++ sub ++ [ir, cr]`. -/
theorem transposedShapeCase3 (sub over : List Nat) (ir cr : Nat) :
    (List.range' (sub.length + 1) over.length ++ List.range sub.length
        ++ [sub.length, sub.length + over.length + 1]).map
        (fun t => (sub ++ [ir] ++ over ++ [cr]).getD t 0)
      = over ++ sub ++ [ir, cr] := by
  set S := sub ++ [ir] ++ over ++ [cr] with hS
  have hlenS : S.length = sub.length + over.length + 2 := by
    rw [hS]
    simp only [List.length_append, List.length_cons, List.length_nil]
    omega
  have htakek : S.take sub.length = sub := by
    rw [hS, List.append_assoc, List.append_assoc]; exact List.take_left' rfl
  have hdropk : S.drop sub.length = ir :: (over ++ [cr]) := by
    rw [hS, List.append_assoc, List.append_assoc]; exact List.drop_left' rfl
  have hdropk1 : S.drop (sub.length + 1) = over ++ [cr] := by
    rw [hS, List.append_assoc]
    exact List.drop_left'
      (by simp only [List.length_append, List.length_cons, List.length_nil])
  have hdropk1r : S.drop (sub.length + 1 + over.length) = cr :: [] := by
    rw [hS]
    exact List.drop_left'
      (by simp only [List.length_append, List.length_cons, List.length_nil])
  have hdropk1r1 : S.drop (sub.length + over.length + 1) = cr :: [] := by
    have e : sub.length + over.length + 1 = sub.length + 1 + over.length := by omega
    rw [e]; exact hdropk1r
  simp only [List.map_append, List.map_cons, List.map_nil]
  rw [map_getD_range' S over.length (sub.length + 1) (by omega)]
  rw [List.range_eq_range', map_getD_range' S sub.length 0 (by omega)]
  rw [List.drop_zero, htakek, hdropk1, List.take_left' rfl,
      getD_eq_head_drop hdropk, getD_eq_head_drop hdropk1r1]

/-! ### Claim C1 -/

/-- Claim C1: in Case 2 the results buffer is reinterpreted as
`sub_shape ++ overhang(super_shape) ++ (input_rows, cam_rows)` and permuted by
`[k..d-3] ++ [0..k-1] ++ [d-2, d-1]`; in Case 3 it is reinterpreted as
`sub_shape ++ (input_rows,) ++ overhang(super_shape) ++ (cam_rows,)` and
permuted by `[k+1..d-2] ++ [0..k-1] ++ [k] ++ [d-1]`; in both cases the
returned non-reduction array has shape `super_shape ++ (input_rows, cam_rows)`. -/
theorem run_kernel_reshape_permute (kfun : KernelCall → Nat → Int) (maxT width : Nat)
    (inputs cam : NDA) (rv : Option NDA) (io co : List Nat) (ir icols cr ccols : Nat)
    (hio : inputs.shape = io ++ [ir, icols]) (hco : cam.shape = co ++ [cr, ccols])
    (hw : 0 < width) (hmaxT : 0 < maxT) :
    (co.length < io.length → co <:+ io →
      0 < ir * inputs_overhang_of io co * cr * cam_overhang_of io co →
      ∃ buf : List Int,
        (run_kernel kfun maxT width false inputs cam rv).2
          = .ok (npTranspose (specPermCase2 co.length (io.length + 2))
              ⟨co ++ overhang co io ++ [ir, cr], buf⟩) ∧
        (npTranspose (specPermCase2 co.length (io.length + 2))
            ⟨co ++ overhang co io ++ [ir, cr], buf⟩).shape = io ++ [ir, cr]) ∧
    (io.length < co.length → io <:+ co →
      0 < ir * inputs_overhang_of io co * cr * cam_overhang_of io co →
      ∃ buf : List Int,
        (run_kernel kfun maxT width false inputs cam rv).2
          = .ok (npTranspose (specPermCase3 io.length (co.length + 2))
              ⟨io ++ [ir] ++ overhang io co ++ [cr], buf⟩) ∧
        (npTranspose (specPermCase3 io.length (co.length + 2))
            ⟨io ++ [ir] ++ overhang io co ++ [cr], buf⟩).shape = co ++ [ir, cr]) := by
  constructor
  · intro hlen hsuf htpc
    have hoc : overhang co io ++ co = io := overhang_append co io hsuf
    have hlens : (overhang co io).length + co.length = io.length := by
      conv_rhs => rw [← hoc]
      simp [List.length_append]
    have haxes : specPermCase2 co.length (io.length + 2)
        = List.range' co.length (overhang co io).length ++ List.range co.length
            ++ [co.length + (overhang co io).length,
                co.length + (overhang co io).length + 1] := by
      unfold specPermCase2
      have e1 : io.length + 2 - 2 - co.length = (overhang co io).length := by omega
      have e2 : io.length + 2 - 2 = co.length + (overhang co io).length := by omega
      have e3 : io.length + 2 - 1 = co.length + (overhang co io).length + 1 := by omega
      rw [e1, e2, e3]
    obtain ⟨call, heq⟩ := run_kernel_case2_eq kfun maxT width inputs cam rv
      io co ir icols cr ccols hio hco (by omega) hlen hsuf
      (by have := lt_min htpc hmaxT; omega)
    refine ⟨(List.range ((co ++ overhang co io ++ [ir, cr]).prod)).map (kfun call),
      ?_, ?_⟩
    · rw [haxes, heq]
    · rw [haxes, npTranspose_shape]
      show (List.range' co.length (overhang co io).length ++ List.range co.length
          ++ [co.length + (overhang co io).length,
              co.length + (overhang co io).length + 1]).map
          (fun t => (co ++ overhang co io ++ [ir, cr]).getD t 0) = io ++ [ir, cr]
      rw [transposedShapeCase2 co (overhang co io) ir cr, hoc]
  · intro hlen hsuf htpc
    have hoc : overhang io co ++ io = co := overhang_append io co hsuf
    have hlens : (overhang io co).length + io.length = co.length := by
      conv_rhs => rw [← hoc]
      simp [List.length_append]
    have haxes : specPermCase3 io.length (co.length + 2)
        = List.range' (io.length + 1) (overhang io co).length ++ List.range io.length
            ++ [io.length, io.length + (overhang io co).length + 1] := by
      unfold specPermCase3
      have e1 : co.length + 2 - 1 - (io.length + 1) = (overhang io co).length := by omega
      have e2 : co.length + 2 - 1 = io.length + (overhang io co).length + 1 := by omega
      rw [e1, e2]
    obtain ⟨call, heq⟩ := run_kernel_case3_eq kfun maxT width inputs cam rv
      io co ir icols cr ccols hio hco (by omega) hlen hsuf
      (by have := lt_min htpc hmaxT; omega)
    refine ⟨(List.range ((io ++ [ir] ++ overhang io co ++ [cr]).prod)).map (kfun call),
      ?_, ?_⟩
    · rw [haxes, heq]
    · rw [haxes, npTranspose_shape]
      show (List.range' (io.length + 1) (overhang io co).length ++ List.range io.length
          ++ [io.length, io.length + (overhang io co).length + 1]).map
          (fun t => (io ++ [ir] ++ overhang io co ++ [cr]).getD t 0) = co ++ [ir, cr]
      rw [transposedShapeCase3 io (overhang io co) ir cr, hoc]

/-- Witness for claim C1: a Case 2 call with outer shapes `(2,)` vs `()` and a
Case 3 call with outer shapes `()` vs `(2,)`, both with `1×1` matrices. -/
theorem run_kernel_reshape_permute_witness :
    (∃ buf : List Int,
      (run_kernel (fun _ n => (n : Int)) 8 1 false ⟨[2, 1, 1], [0, 0]⟩ ⟨[1, 1], [0]⟩ none).2
        = .ok (npTranspose (specPermCase2 0 3) ⟨[] ++ overhang [] [2] ++ [1, 1], buf⟩) ∧
      (npTranspose (specPermCase2 0 3)
          ⟨[] ++ overhang [] [2] ++ [1, 1], buf⟩).shape = [2] ++ [1, 1]) ∧
    (∃ buf : List Int,
      (run_kernel (fun _ n => (n : Int)) 8 1 false ⟨[1, 1], [0]⟩ ⟨[2, 1, 1], [0, 0]⟩ none).2
        = .ok (npTranspose (specPermCase3 0 3) ⟨[] ++ [1] ++ overhang [] [2] ++ [1], buf⟩) ∧
      (npTranspose (specPermCase3 0 3)
          ⟨[] ++ [1] ++ overhang [] [2] ++ [1], buf⟩).shape = [2] ++ [1, 1]) :=
  ⟨(run_kernel_reshape_permute (fun _ n => (n : Int)) 8 1 ⟨[2, 1, 1], [0, 0]⟩
      ⟨[1, 1], [0]⟩ none [2] [] 1 1 1 1 rfl rfl (by decide) (by decide)).1
      (by decide) ⟨[2], rfl⟩ (by decide),
   (run_kernel_reshape_permute (fun _ n => (n : Int)) 8 1 ⟨[1, 1], [0]⟩
      ⟨[2, 1, 1], [0, 0]⟩ none [] [2] 1 1 1 1 rfl rfl (by decide) (by decide)).2
      (by decide) ⟨[2], rfl⟩ (by decide)⟩

/-! ### Claim C2 -/

/-- Claim C2: for every non-reduction call in Case 2 or Case 3 and every
in-bounds logical index `(o…, s…, i, j)` of the returned array, the returned
value is the value the kernel wrote at the even-stack physical position given
by the documented reshape-then-permute formula (`physIndexCase2` /
`physIndexCase3`); the quantification over `o` covers every overhang,
including degenerate all-ones overhangs where the transform is the identity. -/
theorem run_kernel_roundtrip (kfun : KernelCall → Nat → Int) (maxT width : Nat)
    (inputs cam : NDA) (rv : Option NDA) (io co : List Nat) (ir icols cr ccols : Nat)
    (o s : List Nat) (i j : Nat)
    (hio : inputs.shape = io ++ [ir, icols]) (hco : cam.shape = co ++ [cr, ccols])
    (hw : 0 < width) (hmaxT : 0 < maxT) (hbi : i < ir) (hbj : j < cr) :
    (co.length < io.length → co <:+ io →
      0 < ir * inputs_overhang_of io co * cr * cam_overhang_of io co →
      inBoundsB o (overhang co io) = true → inBoundsB s co = true →
      ∃ (call : KernelCall) (arr : NDA),
        run_kernel kfun maxT width false inputs cam rv = ([call], .ok arr) ∧
        elemAt arr (o ++ s ++ [i, j])
          = kfun call (physIndexCase2 co (overhang co io) ir cr s o i j)) ∧
    (io.length < co.length → io <:+ co →
      0 < ir * inputs_overhang_of io co * cr * cam_overhang_of io co →
      inBoundsB o (overhang io co) = true → inBoundsB s io = true →
      ∃ (call : KernelCall) (arr : NDA),
        run_kernel kfun maxT width false inputs cam rv = ([call], .ok arr) ∧
        elemAt arr (o ++ s ++ [i, j])
          = kfun call (physIndexCase3 io (overhang io co) ir cr s o i j)) := by
  constructor
  · intro hlen hsuf htpc hbo hbs
    have hs : s.length = co.length := inBoundsB_length hbs
    have ho : o.length = (overhang co io).length := inBoundsB_length hbo
    obtain ⟨call, heq⟩ := run_kernel_case2_eq kfun maxT width inputs cam rv
      io co ir icols cr ccols hio hco (by omega) hlen hsuf
      (by have := lt_min htpc hmaxT; omega)
    refine ⟨call, _, heq, ?_⟩
    have hb2 : inBoundsB (s ++ o ++ [i, j])
        (co ++ overhang co io ++ [ir, cr]) = true := by
      rw [inBoundsB_append (by simp only [List.length_append]; omega),
          inBoundsB_append hs, hbs, hbo]
      simp [inBoundsB, hbi, hbj]
    have hb : inBoundsB (o ++ s ++ [i, j])
        (overhang co io ++ co ++ [ir, cr]) = true := by
      rw [inBoundsB_append (by simp only [List.length_append]; omega),
          inBoundsB_append ho, hbs, hbo]
      simp [inBoundsB, hbi, hbj]
    have helem := npTranspose_elem
      (List.range' co.length (overhang co io).length ++ List.range co.length
        ++ [co.length + (overhang co io).length, co.length + (overhang co io).length + 1])
      ⟨co ++ overhang co io ++ [ir, cr],
       (List.range ((co ++ overhang co io ++ [ir, cr]).prod)).map (kfun call)⟩
      (o ++ s ++ [i, j])
      (by rw [show ((⟨co ++ overhang co io ++ [ir, cr],
            (List.range ((co ++ overhang co io ++ [ir, cr]).prod)).map (kfun call)⟩ : NDA)).shape
          = co ++ overhang co io ++ [ir, cr] from rfl,
          transposedShapeCase2 co (overhang co io) ir cr]
          exact hb)
    rw [helem]
    show ((List.range ((co ++ overhang co io ++ [ir, cr]).prod)).map (kfun call)).getD
        (transposeOffset (co ++ overhang co io ++ [ir, cr])
          (List.range' co.length (overhang co io).length ++ List.range co.length
            ++ [co.length + (overhang co io).length,
                co.length + (overhang co io).length + 1]) (o ++ s ++ [i, j])) 0
      = kfun call (physIndexCase2 co (overhang co io) ir cr s o i j)
    rw [transposeOffset_case2 co (overhang co io) ir cr s o i j hs ho]
    exact getD_map_range _ _ _ _ (flatIndex_lt hb2)
  · intro hlen hsuf htpc hbo hbs
    have hs : s.length = io.length := inBoundsB_length hbs
    have ho : o.length = (overhang io co).length := inBoundsB_length hbo
    obtain ⟨call, heq⟩ := run_kernel_case3_eq kfun maxT width inputs cam rv
      io co ir icols cr ccols hio hco (by omega) hlen hsuf
      (by have := lt_min htpc hmaxT; omega)
    refine ⟨call, _, heq, ?_⟩
    have hb2 : inBoundsB (s ++ [i] ++ o ++ [j])
        (io ++ [ir] ++ overhang io co ++ [cr]) = true := by
      rw [inBoundsB_append
            (by simp only [List.length_append, List.length_cons, List.length_nil]; omega),
          inBoundsB_append
            (by simp only [List.length_append, List.length_cons, List.length_nil]; omega),
          inBoundsB_append hs, hbs, hbo]
      simp [inBoundsB, hbi, hbj]
    have hb : inBoundsB (o ++ s ++ [i, j])
        (overhang io co ++ io ++ [ir, cr]) = true := by
      rw [inBoundsB_append (by simp only [List.length_append]; omega),
          inBoundsB_append ho, hbs, hbo]
      simp [inBoundsB, hbi, hbj]
    have helem := npTranspose_elem
      (List.range' (io.length + 1) (overhang io co).length ++ List.range io.length
        ++ [io.length, io.length + (overhang io co).length + 1])
      ⟨io ++ [ir] ++ overhang io co ++ [cr],
       (List.range ((io ++ [ir] ++ overhang io co ++ [cr]).prod)).map (kfun call)⟩
      (o ++ s ++ [i, j])
      (by rw [show ((⟨io ++ [ir] ++ overhang io co ++ [cr],
            (List.range ((io ++ [ir] ++ overhang io co ++ [cr]).prod)).map (kfun call)⟩ : NDA)).shape
          = io ++ [ir] ++ overhang io co ++ [cr] from rfl,
          transposedShapeCase3 io (overhang io co) ir cr]
          exact hb)
    rw [helem]
    show ((List.range ((io ++ [ir] ++ overhang io co ++ [cr]).prod)).map (kfun call)).getD
        (transposeOffset (io ++ [ir] ++ overhang io co ++ [cr])
          (List.range' (io.length + 1) (overhang io co).length ++ List.range io.length
            ++ [io.length, io.length + (overhang io co).length + 1]) (o ++ s ++ [i, j])) 0
      = kfun call (physIndexCase3 io (overhang io co) ir cr s o i j)
    rw [transposeOffset_case3 io (overhang io co) ir cr s o i j hs ho]
    exact getD_map_range _ _ _ _ (flatIndex_lt hb2)

/-- Witness for claim C2: concrete Case 2 and Case 3 calls with outer shapes
`(2,)` against `()`, probing logical index `(1, 0, 0)`. -/
theorem run_kernel_roundtrip_witness :
    (∃ (call : KernelCall) (arr : NDA),
      run_kernel (fun _ n => (n : Int)) 8 1 false ⟨[2, 1, 1], [0, 0]⟩ ⟨[1, 1], [0]⟩ none
        = ([call], .ok arr) ∧
      elemAt arr ([1] ++ [] ++ [0, 0])
        = ((physIndexCase2 [] (overhang [] [2]) 1 1 [] [1] 0 0 : Nat) : Int)) ∧
    (∃ (call : KernelCall) (arr : NDA),
      run_kernel (fun _ n => (n : Int)) 8 1 false ⟨[1, 1], [0]⟩ ⟨[2, 1, 1], [0, 0]⟩ none
        = ([call], .ok arr) ∧
      elemAt arr ([1] ++ [] ++ [0, 0])
        = ((physIndexCase3 [] (overhang [] [2]) 1 1 [] [1] 0 0 : Nat) : Int)) :=
  ⟨(run_kernel_roundtrip (fun _ n => (n : Int)) 8 1 ⟨[2, 1, 1], [0, 0]⟩ ⟨[1, 1], [0]⟩
      none [2] [] 1 1 1 1 [1] [] 0 0 rfl rfl (by decide) (by decide) (by decide)
      (by decide)).1 (by decide) ⟨[2], rfl⟩ (by decide) (by decide) (by decide),
   (run_kernel_roundtrip (fun _ n => (n : Int)) 8 1 ⟨[1, 1], [0]⟩ ⟨[2, 1, 1], [0, 0]⟩
      none [] [2] 1 1 1 1 [1] [] 0 0 rfl rfl (by decide) (by decide) (by decide)
      (by decide)).2 (by decide) ⟨[2], rfl⟩ (by decide) (by decide) (by decide)⟩

/-! ### Claims C3, C6, C9 -/

/-- Claim C3 evaluated on the code: a reduction with `input_rows = 2`,
`cam_rows = 3`, `columns = 4`, encoding width 1, inputs outer shape `()`, cam
outer shape `(5,)` and a length-3 reduction-values vector does not return a
`(5, 2)` buffer: the Case 3 branch tries to reshape the 10-element reduction
buffer to `(2, 5, 3)` (30 elements), which fails, so `run_kernel` errors out
instead of returning normally. -/
theorem run_kernel_reduction_case3_fails :
    (run_kernel (fun _ n => (n : Int)) 1024 1 true ⟨[2, 4], List.replicate 8 0⟩
        ⟨[5, 3, 4], List.replicate 60 0⟩ (some ⟨[3], [0, 0, 0]⟩)).2
      = .error .reshapeMismatch := by
  rfl

/-- Claim C6: when `threads_per_core = 0` the launch-geometry stage is
unguarded — `run_kernel` hits the division-by-zero condition of
`ceil(threads_per_core / threads_per_block)` and does not complete normally,
returning the zero-division error with no kernel invocation. -/
theorem run_kernel_zero_threads (kfun : KernelCall → Nat → Int) (maxT width : Nat)
    (red : Bool) (inputs cam : NDA) (rv : Option NDA) (io co : List Nat)
    (ir icols cr ccols : Nat)
    (hio : inputs.shape = io ++ [ir, icols]) (hco : cam.shape = co ++ [cr, ccols])
    (hw : ¬ width = 0)
    (htpc : ir * inputs_overhang_of io co * cr * cam_overhang_of io co = 0) :
    run_kernel kfun maxT width red inputs cam rv = ([], .error .zeroDivision) := by
  have h2i : ¬(inputs.shape.length < 2 ∨ cam.shape.length < 2) := by
    rw [hio, hco]
    simp only [List.length_append, List.length_cons, List.length_nil]
    omega
  simp only [run_kernel]
  rw [if_neg h2i, if_neg hw, hio, hco]
  simp only [dimFromEnd_two, dimFromEnd_one, outerOf_append]
  rw [if_pos (by omega :
    min (ir * inputs_overhang_of io co * cr * cam_overhang_of io co) maxT = 0)]

/-- Witness for claim C6 at `input_rows = 0` (inputs stack `0 × 1`). -/
theorem run_kernel_zero_threads_witness :
    run_kernel (fun _ n => (n : Int)) 8 1 false ⟨[0, 1], []⟩ ⟨[1, 1], [0]⟩ none
      = ([], .error .zeroDivision) :=
  run_kernel_zero_threads (fun _ n => (n : Int)) 8 1 false ⟨[0, 1], []⟩ ⟨[1, 1], [0]⟩
    none [] [] 0 1 1 1 rfl rfl (by decide) (by decide)

/-- Claim C9: whenever the guards pass and the kernel is invoked, its
positional argument list is (flattened inputs, flattened cam,
`cam.shape[-1] / cell_encoding_width`, `input_rows * inputs_overhang_factor`,
`cam_rows * cam_overhang_factor`, results buffer), with the flattened
reduction-values vector appended as one final argument exactly when the
operation is a reduction. -/
theorem run_kernel_args (kfun : KernelCall → Nat → Int) (maxT width : Nat) (red : Bool)
    (inputs cam : NDA) (rv : Option NDA) (io co : List Nat) (ir icols cr ccols : Nat)
    (hio : inputs.shape = io ++ [ir, icols]) (hco : cam.shape = co ++ [cr, ccols])
    (hw : 0 < width)
    (htpb : ¬ min (ir * inputs_overhang_of io co * cr * cam_overhang_of io co) maxT = 0)
    (hrv : ¬(red = true ∧ rv = none)) :
    (run_kernel kfun maxT width red inputs cam rv).1
      = [⟨dimGridOf (ir * inputs_overhang_of io co * cr * cam_overhang_of io co) maxT
            (sub_shape_of io co).prod,
          dimBlockOf (ir * inputs_overhang_of io co * cr * cam_overhang_of io co) maxT,
          [KernelArg.arr inputs.data, KernelArg.arr cam.data,
           KernelArg.num (ccols / width),
           KernelArg.num (ir * inputs_overhang_of io co),
           KernelArg.num (cr * cam_overhang_of io co),
           KernelArg.buf (List.replicate
             (resultsShapeOf red (super_shape_of io co) ir cr).prod 0)]
          ++ (if red = true then (rv.map (fun v => KernelArg.arr v.data)).toList
              else [])⟩] := by
  obtain ⟨call, hcall, heq⟩ := run_kernel_call_eq kfun maxT width red inputs cam rv
    io co ir icols cr ccols hio hco (by omega) htpb hrv
  rw [heq, hcall]

/-- Witness for claim C9: a reduction call with `1 × 1` stacks, whose argument
list ends with the flattened reduction-values vector. -/
theorem run_kernel_args_witness :
    (run_kernel (fun _ n => (n : Int)) 8 1 true ⟨[1, 1], [3]⟩ ⟨[1, 1], [4]⟩
        (some ⟨[1], [5]⟩)).1
      = [⟨(1, 1, 1), (1, 1, 1),
          [KernelArg.arr [3], KernelArg.arr [4], KernelArg.num 1, KernelArg.num 1,
           KernelArg.num 1, KernelArg.buf [0]] ++ [KernelArg.arr [5]]⟩] :=
  run_kernel_args (fun _ n => (n : Int)) 8 1 true ⟨[1, 1], [3]⟩ ⟨[1, 1], [4]⟩
    (some ⟨[1], [5]⟩) [] [] 1 1 1 1 rfl rfl (by decide) (by decide) (by decide)

end Campie
